import Mathlib

/-!
Verification of the distributed mutual-exclusion lock
(`src/modules/Server/Lock/distributedLock.py`, class `DistributedLock`,
second Ricart-Agrawala token algorithm).

Peer identifiers and logical-clock values are natural numbers.  A Python
dictionary keyed by peer identifiers is embedded as an insertion-ordered
association list (`Dict`); `dictInsert`, `dictDel` and `dictGet` mirror
Python assignment, `del` and subscript lookup.  Operations that can raise
(`KeyError` on a missing key, `TypeError` when the `None` token is
subscripted, `AttributeError` when `None.items()` is taken) return a
`PyOutcome` carrying the error together with the partially mutated state,
exactly as the exception leaves the object.  Every method also returns the
list of guard (`peer_list.lock`) and remote-stub events it performs, in
program order, so the locking discipline can be stated.
-/

/-- A Python dict from peer id to int: insertion-ordered association list
with unique keys. -/
abbrev Dict : Type := List (Nat × Nat)

/-- Python `d[k]` as a total lookup: `some v` when the key is present. -/
def dictGet (d : Dict) (k : Nat) : Option Nat :=
  (List.find? (fun p => p.1 = k) d).map (fun p => p.2)

/-- Python `d[k] = v`: replace the value in place when the key is present,
otherwise append the new binding at the end (insertion order). -/
def dictInsert (d : Dict) (k v : Nat) : Dict :=
  if List.any d (fun p => p.1 = k) then
    List.map (fun p => if p.1 = k then (k, v) else p) d
  else
    d ++ [(k, v)]

/-- Python `del d[k]` restricted to a present key (the caller handles the
`KeyError` case separately). -/
def dictDel (d : Dict) (k : Nat) : Dict :=
  List.filter (fun p => p.1 ≠ k) d

/-- Key presence test, Python `k in d`. -/
def dictHas (d : Dict) (k : Nat) : Bool :=
  List.any d (fun p => p.1 = k)

/-- The key list of a dict, in insertion order (Python `d.keys()`). -/
def dictKeys (d : Dict) : List Nat :=
  List.map (fun p => p.1) d

/-- Number of entries, Python `len(d)`. -/
def dictLen (d : Dict) : Nat :=
  List.length d

/-- Embeds `DistributedLock._prepare`: `list(token.items())`, the token as
an ordered list of (key, value) pairs for the JSON wire format. -/
def pyPrepare (d : Dict) : List (Nat × Nat) :=
  d

/-- Embeds `DistributedLock._unprepare`: `dict(token)`, rebuilding the
dictionary by inserting the received pairs in order. -/
def pyUnprepare (l : List (Nat × Nat)) : Dict :=
  List.foldl (fun d p => dictInsert d p.1 p.2) ([] : Dict) l

lemma dictInsert_of_not_has (d : Dict) (k v : Nat) (h : dictHas d k = false) :
    dictInsert d k v = d ++ [(k, v)] := by
  unfold dictHas at h
  unfold dictInsert
  simp [h]

lemma foldl_dictInsert_fresh (l : List (Nat × Nat)) :
    ∀ acc : Dict, (∀ p ∈ l, dictHas acc p.1 = false) →
      (dictKeys l).Nodup →
      List.foldl (fun d p => dictInsert d p.1 p.2) acc l = acc ++ l := by
  induction l with
  | nil => intro acc _ _; simp
  | cons hd tl ih =>
      intro acc hfresh hnd
      have hhd : dictHas acc hd.1 = false := hfresh hd (by simp)
      have hndk : hd.1 ∉ dictKeys tl ∧ (dictKeys tl).Nodup := by
        have : dictKeys (hd :: tl) = hd.1 :: dictKeys tl := by simp [dictKeys]
        rw [this] at hnd
        exact List.nodup_cons.mp hnd
      have hfresh' : ∀ p ∈ tl, dictHas (acc ++ [hd]) p.1 = false := by
        intro p hp
        have h1 : dictHas acc p.1 = false := hfresh p (by simp [hp])
        have h2 : p.1 ≠ hd.1 := by
          intro he
          exact hndk.1 (he ▸ List.mem_map_of_mem (fun q => q.1) hp)
        unfold dictHas at h1 ⊢
        simp at h1 ⊢
        constructor
        · intro a b hab
          exact h1 a b hab
        · exact fun he => h2 he.symm
      calc List.foldl (fun d p => dictInsert d p.1 p.2) acc (hd :: tl)
          = List.foldl (fun d p => dictInsert d p.1 p.2) (dictInsert acc hd.1 hd.2) tl := by
            simp [List.foldl]
        _ = List.foldl (fun d p => dictInsert d p.1 p.2) (acc ++ [hd]) tl := by
            rw [dictInsert_of_not_has acc hd.1 hd.2 hhd]
        _ = (acc ++ [hd]) ++ tl := ih (acc ++ [hd]) hfresh' hndk.2
        _ = acc ++ hd :: tl := by simp

/-- C9 core: rebuilding a dict from its ordered pair list is the identity
when the keys are unique (they always are for a dict's own `items()`). -/
lemma pyUnprepare_pyPrepare (d : Dict) (h : (dictKeys d).Nodup) :
    pyUnprepare (pyPrepare d) = d := by
  have := foldl_dictInsert_fresh d ([] : Dict) (by intro p _; simp [dictHas]) h
  simpa [pyUnprepare, pyPrepare] using this

/-- Embeds the module constant `NO_TOKEN = 0`. -/
def NO_TOKEN : Nat := 0

/-- Embeds the module constant `TOKEN_PRESENT = 1`. -/
def TOKEN_PRESENT : Nat := 1

/-- Embeds the module constant `TOKEN_HELD = 2`. -/
def TOKEN_HELD : Nat := 2

/-- The mutable fields of one `DistributedLock` instance: `self.time`,
`self.token` (`None` or a dict), `self.request`, `self.state`. -/
structure LockState where
  time : Nat
  token : Option Dict
  request : Dict
  state : Nat
deriving DecidableEq

/-- The fields as `__init__` leaves them: `time = 0`, `token = None`,
`request = {}`, `state = NO_TOKEN`. -/
def initState : LockState :=
  { time := 0, token := none, request := [], state := NO_TOKEN }

/-- Python exceptions the lock's methods can raise. -/
inductive PyErr where
  | keyError (k : Nat)
  | typeError
  | attributeError
deriving DecidableEq

/-- Result of running one method: normal return, or an exception carrying
the (partially mutated) fields the exception leaves behind. -/
inductive PyOutcome where
  | ok (s : LockState)
  | err (e : PyErr) (s : LockState)
deriving DecidableEq

/-- The fields after the method, whether it returned or raised. -/
def PyOutcome.stateOf : PyOutcome → LockState
  | .ok s => s
  | .err _ s => s

/-- Guard and remote-stub events a method performs, in program order. -/
inductive Event where
  | lockAcquire
  | lockRelease
  | callRequestToken (target : Nat) (time : Nat) (pid : Nat)
  | callObtainToken (target : Nat) (payload : List (Nat × Nat))
deriving DecidableEq

/-- True when some remote-stub call in the trace happens while the
(reentrant) guard is held, starting from lock depth `d`. -/
def callsUnderGuard : List Event → Nat → Bool
  | [], _ => false
  | Event.lockAcquire :: es, d => callsUnderGuard es (d + 1)
  | Event.lockRelease :: es, d => callsUnderGuard es (d - 1)
  | Event.callRequestToken _ _ _ :: es, d => decide (0 < d) || callsUnderGuard es d
  | Event.callObtainToken _ _ :: es, d => decide (0 < d) || callsUnderGuard es d

/-- The `obtain_token` stub calls contained in a trace, in order. -/
def sendsOf (evs : List Event) : List (Nat × List (Nat × Nat)) :=
  List.filterMap
    (fun e => match e with
      | Event.callObtainToken t pl => some (t, pl)
      | _ => none) evs

/-- Python's `sorted` on a key list, embedded as insertion sort. -/
def insertSorted (a : Nat) : List Nat → List Nat
  | [] => [a]
  | b :: l => if a ≤ b then a :: b :: l else b :: insertSorted a l

/-- Python's `sorted(keys)` (`initialize` only inspects element 0). -/
def pySorted : List Nat → List Nat
  | [] => []
  | a :: l => insertSorted a (pySorted l)

lemma insertSorted_ne_nil (a : Nat) (l : List Nat) : insertSorted a l ≠ [] := by
  cases l with
  | nil => simp [insertSorted]
  | cons b t =>
      by_cases h : a ≤ b <;> simp [insertSorted, h]

lemma mem_insertSorted (x a : Nat) (l : List Nat) :
    x ∈ insertSorted a l ↔ x = a ∨ x ∈ l := by
  induction l with
  | nil => simp [insertSorted]
  | cons b t ih =>
      by_cases h : a ≤ b
      · simp [insertSorted, h]
      · simp [insertSorted, h, ih]
        tauto

lemma mem_pySorted (x : Nat) (l : List Nat) : x ∈ pySorted l ↔ x ∈ l := by
  induction l with
  | nil => simp [pySorted]
  | cons a t ih => simp [pySorted, mem_insertSorted, ih]

lemma head?_insertSorted (a : Nat) (l : List Nat) :
    (insertSorted a l).head? =
      some (match l.head? with | none => a | some b => min a b) := by
  cases l with
  | nil => simp [insertSorted]
  | cons b t =>
      by_cases h : a ≤ b
      · simp [insertSorted, h, Nat.min_eq_left h]
      · have : min a b = b := Nat.min_eq_right (Nat.le_of_lt (Nat.lt_of_not_le h))
        simp [insertSorted, h, this]

lemma pySorted_head_min (l : List Nat) (m : Nat)
    (h : (pySorted l).head? = some m) : m ∈ l ∧ ∀ j ∈ l, m ≤ j := by
  induction l generalizing m with
  | nil => simp [pySorted] at h
  | cons a t ih =>
      rw [pySorted, head?_insertSorted] at h
      cases ht : (pySorted t).head? with
      | none =>
          rw [ht] at h
          simp at h
          have htnil : t = [] := by
            cases t with
            | nil => rfl
            | cons b u =>
                rw [pySorted] at ht
                have := insertSorted_ne_nil b (pySorted u)
                simp [List.head?_eq_none_iff.mp ht] at this
          subst htnil
          simp [h]
      | some m' =>
          rw [ht] at h
          have hmin : min a m' = m := by simpa using h
          obtain ⟨hm', hall⟩ := ih m' ht
          have hma : m ≤ a := by rw [← hmin]; exact Nat.min_le_left a m'
          have hmm : m ≤ m' := by rw [← hmin]; exact Nat.min_le_right a m'
          constructor
          · rcases Nat.le_total a m' with hle | hle
            · have : m = a := by rw [← hmin, Nat.min_eq_left hle]
              rw [this]; exact List.mem_cons_self a t
            · have : m = m' := by rw [← hmin, Nat.min_eq_right hle]
              rw [this]; exact List.mem_cons_of_mem a hm'
          · intro j hj
            rcases List.mem_cons.mp hj with hj | hj
            · subst hj; exact hma
            · exact Nat.le_trans hmm (hall j hj)

lemma pySorted_head_exists (l : List Nat) (h : l ≠ []) :
    ∃ m, (pySorted l).head? = some m := by
  cases l with
  | nil => exact absurd rfl h
  | cons a t =>
      rw [pySorted, head?_insertSorted]
      exact ⟨_, rfl⟩

/-- Embeds `DistributedLock.initialize`: under the registry guard, sort the
current peer ids; if there are none or the smallest is `>=` the owner's own
id, become initial custodian (`state := TOKEN_PRESENT`,
`token := {owner: 0}`), else `state := NO_TOKEN`; then set
`request[peer] := 0` for every current peer. -/
def pyInit (ownerId : Nat) (peers : List Nat) (s : LockState) : LockState :=
  let sorted_pid := pySorted peers
  let s1 :=
    match sorted_pid.head? with
    | none =>
        { s with state := TOKEN_PRESENT, token := some (dictInsert [] ownerId 0) }
    | some m =>
        if m ≥ ownerId then
          { s with state := TOKEN_PRESENT, token := some (dictInsert [] ownerId 0) }
        else
          { s with state := NO_TOKEN }
  { s1 with request := List.foldl (fun r p => dictInsert r p 0) s1.request peers }

/-- One iteration pass of `release`'s scan: walk the peer ids in the
registry's iteration order, considering only those with `cmp pid = true`
(`pid > owner` in the first pass, `pid < owner` in the second); on the
first peer with `request[pid] > token[pid]` return it together with the
token updated by `token[owner] := time`.  A missing `request` or `token`
key raises `KeyError`; a `None` token raises `TypeError` when
subscripted. -/
def releaseScan (time ownerId : Nat) (cmp : Nat → Bool)
    (request : Dict) (token : Option Dict) :
    List Nat → Except PyErr (Option (Nat × Dict))
  | [] => Except.ok none
  | pid :: rest =>
    if cmp pid then
      match dictGet request pid with
      | none => Except.error (PyErr.keyError pid)
      | some rq =>
        match token with
        | none => Except.error PyErr.typeError
        | some tk =>
          match dictGet tk pid with
          | none => Except.error (PyErr.keyError pid)
          | some tv =>
            if rq > tv then
              Except.ok (some (pid, dictInsert tk ownerId time))
            else
              releaseScan time ownerId cmp request token rest
    else
      releaseScan time ownerId cmp request token rest

/-- Embeds `DistributedLock.release`: under the guard set
`state := TOKEN_PRESENT`, then scan the peers with id greater than the
owner's, then (only if none matched) those with id smaller; on the first
peer `p` with `request[p] > token[p]` set `state := NO_TOKEN`, record
`token[owner] := time`, call `obtain_token` on `p`'s stub with the
prepared token — while still holding the guard — and clear the local
token to `None`.  The `finally` clause releases the guard even when the
scan raises. -/
def pyRelease (ownerId : Nat) (peers : List Nat) (s : LockState) :
    List Event × PyOutcome :=
  let s1 := { s with state := TOKEN_PRESENT }
  match releaseScan s.time ownerId (fun pid => decide (ownerId < pid)) s.request s.token peers with
  | Except.error e => ([Event.lockAcquire, Event.lockRelease], PyOutcome.err e s1)
  | Except.ok (some (pid, tk)) =>
      ([Event.lockAcquire, Event.callObtainToken pid (pyPrepare tk), Event.lockRelease],
       PyOutcome.ok { s1 with state := NO_TOKEN, token := none })
  | Except.ok none =>
      match releaseScan s.time ownerId (fun pid => decide (pid < ownerId)) s.request s.token peers with
      | Except.error e => ([Event.lockAcquire, Event.lockRelease], PyOutcome.err e s1)
      | Except.ok (some (pid, tk)) =>
          ([Event.lockAcquire, Event.callObtainToken pid (pyPrepare tk), Event.lockRelease],
           PyOutcome.ok { s1 with state := NO_TOKEN, token := none })
      | Except.ok none => ([Event.lockAcquire, Event.lockRelease], PyOutcome.ok s1)

/-- Embeds `DistributedLock.request_token`: under the guard merge
`request[pid] := max(request[pid], time)` — a `KeyError` on an unknown
`pid` propagates before any mutation, and this method has no
`try/finally`, so the guard is then left held — and, when the state is
`TOKEN_PRESENT`, drop the guard and run `release`. -/
def pyRequestToken (ownerId : Nat) (peers : List Nat) (time pid : Nat)
    (s : LockState) : List Event × PyOutcome :=
  match dictGet s.request pid with
  | none => ([Event.lockAcquire], PyOutcome.err (PyErr.keyError pid) s)
  | some r =>
    let s1 := { s with request := dictInsert s.request pid (max r time) }
    if s1.state = TOKEN_PRESENT then
      let res := pyRelease ownerId peers s1
      ([Event.lockAcquire, Event.lockRelease] ++ res.1, res.2)
    else
      ([Event.lockAcquire, Event.lockRelease], PyOutcome.ok s1)

/-- Embeds `DistributedLock.obtain_token`: under the guard adopt the
received pair list as the local token and set `state := 1`
(`TOKEN_PRESENT`). -/
def pyObtainToken (s : LockState) (payload : List (Nat × Nat)) :
    List Event × PyOutcome :=
  ([Event.lockAcquire, Event.lockRelease],
   PyOutcome.ok { s with token := some (pyUnprepare payload), state := 1 })

/-- Embeds the guard/stub trace of `DistributedLock.acquire`: with
`NO_TOKEN`, increment the clock under the guard, release the guard, call
`request_token(time, owner.id)` on every peer stub, busy-wait until the
state leaves `NO_TOKEN` (no events), then set `state := TOKEN_HELD` under
the guard; otherwise just take `state := TOKEN_HELD` under the guard.
The blocking wait keeps the state change itself outside this function —
in the global model it is the `startAcquire`/`finishAcquire` steps. -/
def pyAcquireEvents (ownerId : Nat) (peers : List Nat) (s : LockState) :
    List Event :=
  if s.state = NO_TOKEN then
    [Event.lockAcquire, Event.lockRelease]
      ++ List.map (fun pid => Event.callRequestToken pid (s.time + 1) ownerId) peers
      ++ [Event.lockAcquire, Event.lockRelease]
  else
    [Event.lockAcquire, Event.lockRelease, Event.lockAcquire, Event.lockRelease]

/-- Embeds `DistributedLock.register_peer`: under the guard, when this
peer custodies the token set `token[pid] := 0` (a `None` token would
raise `TypeError`), then set `request[pid] := 0`. -/
def pyRegisterPeer (s : LockState) (pid : Nat) : List Event × PyOutcome :=
  if s.state = TOKEN_HELD ∨ s.state = TOKEN_PRESENT then
    match s.token with
    | none => ([Event.lockAcquire, Event.lockRelease], PyOutcome.err PyErr.typeError s)
    | some tk =>
        let s1 := { s with token := some (dictInsert tk pid 0) }
        ([Event.lockAcquire, Event.lockRelease],
         PyOutcome.ok { s1 with request := dictInsert s1.request pid 0 })
  else
    ([Event.lockAcquire, Event.lockRelease],
     PyOutcome.ok { s with request := dictInsert s.request pid 0 })

/-- Embeds `DistributedLock.unregister_peer`: under the guard, when this
peer custodies the token run `del token[pid]` (raising `KeyError` when
absent, `TypeError` when the token is `None`), then `del request[pid]`
(raising `KeyError` when absent, after the token entry was already
removed). -/
def pyUnregisterPeer (s : LockState) (pid : Nat) : List Event × PyOutcome :=
  if s.state = TOKEN_HELD ∨ s.state = TOKEN_PRESENT then
    match s.token with
    | none => ([Event.lockAcquire, Event.lockRelease], PyOutcome.err PyErr.typeError s)
    | some tk =>
        if dictHas tk pid then
          let s1 := { s with token := some (dictDel tk pid) }
          if dictHas s1.request pid then
            ([Event.lockAcquire, Event.lockRelease],
             PyOutcome.ok { s1 with request := dictDel s1.request pid })
          else
            ([Event.lockAcquire, Event.lockRelease],
             PyOutcome.err (PyErr.keyError pid) s1)
        else
          ([Event.lockAcquire, Event.lockRelease], PyOutcome.err (PyErr.keyError pid) s)
  else
    if dictHas s.request pid then
      ([Event.lockAcquire, Event.lockRelease],
       PyOutcome.ok { s with request := dictDel s.request pid })
    else
      ([Event.lockAcquire, Event.lockRelease], PyOutcome.err (PyErr.keyError pid) s)

/-- Embeds `DistributedLock.destroy`: under the guard, when this peer
custodies the token and the peer list is non-empty, run `release`
(reentrantly re-acquiring the guard); if the state is still not
`NO_TOKEN` afterwards, call `obtain_token` with the prepared token on the
stub of the first peer in the registry's iteration order — still under
the guard.  With an empty peer list, or without the token, nothing
happens. -/
def pyDestroy (ownerId : Nat) (peers : List Nat) (s : LockState) :
    List Event × PyOutcome :=
  match peers with
  | [] => ([Event.lockAcquire, Event.lockRelease], PyOutcome.ok s)
  | pid0 :: _ =>
    if s.state = TOKEN_HELD ∨ s.state = TOKEN_PRESENT then
      match pyRelease ownerId peers s with
      | (ev, PyOutcome.err e s1) =>
          (Event.lockAcquire :: ev ++ [Event.lockRelease], PyOutcome.err e s1)
      | (ev, PyOutcome.ok s1) =>
          if s1.state ≠ NO_TOKEN then
            match s1.token with
            | some tk =>
                (Event.lockAcquire :: ev
                   ++ [Event.callObtainToken pid0 (pyPrepare tk), Event.lockRelease],
                 PyOutcome.ok s1)
            | none =>
                (Event.lockAcquire :: ev ++ [Event.lockRelease],
                 PyOutcome.err PyErr.attributeError s1)
          else
            (Event.lockAcquire :: ev ++ [Event.lockRelease], PyOutcome.ok s1)
    else
      ([Event.lockAcquire, Event.lockRelease], PyOutcome.ok s)

lemma dictHas_iff_mem_keys (d : Dict) (k : Nat) :
    dictHas d k = true ↔ k ∈ dictKeys d := by
  unfold dictHas dictKeys
  simp [List.any_eq_true, List.mem_map]

lemma dictKeys_insert (d : Dict) (k v : Nat) :
    dictKeys (dictInsert d k v) =
      if dictHas d k then dictKeys d else dictKeys d ++ [k] := by
  unfold dictInsert dictHas
  by_cases h : List.any d (fun p => p.1 = k) = true
  · simp only [h, if_true]
    unfold dictKeys
    rw [List.map_map]
    apply List.map_congr_left
    intro p _
    by_cases hp : p.1 = k <;> simp [hp]
  · simp only [Bool.not_eq_true] at h
    simp [h, dictKeys]

lemma dictKeys_del (d : Dict) (k : Nat) :
    dictKeys (dictDel d k) = List.filter (fun x => x ≠ k) (dictKeys d) := by
  unfold dictDel dictKeys
  induction d with
  | nil => simp
  | cons a t ih =>
      by_cases h : a.1 = k
      · simpa [List.filter, h] using ih
      · simpa [List.filter, h] using ih

lemma dictLen_eq_keys_length (d : Dict) : dictLen d = (dictKeys d).length := by
  simp [dictLen, dictKeys]

lemma find?_map_keyfix_ne (d : Dict) (k v q : Nat) (hq : q ≠ k) :
    List.find? (fun p => p.1 = q)
        (List.map (fun p => if p.1 = k then (k, v) else p) d)
      = List.find? (fun p => p.1 = q) d := by
  induction d with
  | nil => simp
  | cons a t ih =>
      simp only [List.map_cons, List.find?]
      by_cases hak : a.1 = k
      · have h2 : ¬ a.1 = q := fun he => hq (by rw [← he, hak])
        have hkq : ¬ (k = q) := fun he => hq he.symm
        simp [hak, h2, hkq, ih]
      · by_cases haq : a.1 = q
        · simp only [if_neg hak]
          simp [haq]
        · simp [hak, haq, ih]

lemma find?_map_keyfix_self (d : Dict) (k v : Nat)
    (h : List.any d (fun p => p.1 = k) = true) :
    List.find? (fun p => p.1 = k)
        (List.map (fun p => if p.1 = k then (k, v) else p) d)
      = some (k, v) := by
  induction d with
  | nil => simp at h
  | cons a t ih =>
      by_cases hak : a.1 = k
      · simp only [List.map_cons]
        rw [List.find?_cons_of_pos]
        · simp [hak]
        · simp [hak]
      · simp only [List.any_cons] at h
        have ht : List.any t (fun p => p.1 = k) = true := by
          rcases Bool.or_eq_true_iff.mp h with h1 | h1
          · exact absurd (by simpa using h1) hak
          · exact h1
        simp only [List.map_cons]
        rw [List.find?_cons_of_neg]
        · exact ih ht
        · simp [hak]

lemma dictGet_insert (d : Dict) (k v q : Nat) :
    dictGet (dictInsert d k v) q = if q = k then some v else dictGet d q := by
  unfold dictGet dictInsert
  by_cases h : List.any d (fun p => p.1 = k) = true
  · simp only [h, if_true]
    by_cases hq : q = k
    · subst hq
      rw [find?_map_keyfix_self d q v h]
      simp
    · rw [find?_map_keyfix_ne d k v q hq]
      simp [hq]
  · simp only [Bool.not_eq_true] at h
    simp only [h, Bool.false_eq_true, if_false]
    rw [List.find?_append]
    by_cases hq : q = k
    · subst hq
      have hnone : List.find? (fun p => (p.1 = q : Bool)) d = none := by
        rw [List.find?_eq_none]
        intro p hp
        simp only [List.any_eq_false] at h
        simpa using h p hp
      rw [hnone]
      simp [List.find?]
    · have hkq : ¬ (k = q) := fun he => hq he.symm
      have hsingle : List.find? (fun p => (p.1 = q : Bool)) ([(k, v)] : Dict) = none := by
        simp [List.find?, hkq]
      rw [hsingle]
      simp [hq]

lemma dictGet_insert_self (d : Dict) (k v : Nat) :
    dictGet (dictInsert d k v) k = some v := by
  simp [dictGet_insert]

lemma dictGet_insert_ne (d : Dict) (k v q : Nat) (h : q ≠ k) :
    dictGet (dictInsert d k v) q = dictGet d q := by
  simp [dictGet_insert, h]

lemma releaseScan_eq_find (time ownerId : Nat) (cmp : Nat → Bool)
    (request tk : Dict) (l : List Nat)
    (hkeys : ∀ p ∈ l, cmp p = true →
      (dictGet request p).isSome = true ∧ (dictGet tk p).isSome = true) :
    releaseScan time ownerId cmp request (some tk) l =
      Except.ok ((List.find?
          (fun q => decide ((dictGet tk q).getD 0 < (dictGet request q).getD 0))
          (List.filter cmp l)).map (fun p => (p, dictInsert tk ownerId time))) := by
  induction l with
  | nil => simp [releaseScan]
  | cons pid rest ih =>
      by_cases hc : cmp pid = true
      · obtain ⟨hr, ht⟩ := hkeys pid (by simp) hc
        obtain ⟨rq, hrq⟩ := Option.isSome_iff_exists.mp hr
        obtain ⟨tv, htv⟩ := Option.isSome_iff_exists.mp ht
        have hrest : ∀ p ∈ rest, cmp p = true →
            (dictGet request p).isSome = true ∧ (dictGet tk p).isSome = true :=
          fun p hp => hkeys p (by simp [hp])
        rw [releaseScan]
        simp only [hc, if_true, hrq, htv]
        by_cases hgt : rq > tv
        · have helig : decide ((dictGet tk pid).getD 0 < (dictGet request pid).getD 0) = true := by
            simp [hrq, htv, hgt]
          simp [hgt, List.filter_cons, hc, List.find?_cons_of_pos, helig]
        · have helig : decide ((dictGet tk pid).getD 0 < (dictGet request pid).getD 0) = false := by
            simp [hrq, htv]
            omega
        
          rw [if_neg hgt]
          rw [ih hrest]
          simp [List.filter_cons, hc, List.find?_cons_of_neg, helig]
      · have hc' : cmp pid = false := by
          simpa using hc
        have hrest : ∀ p ∈ rest, cmp p = true →
            (dictGet request p).isSome = true ∧ (dictGet tk p).isSome = true :=
          fun p hp => hkeys p (by simp [hp])
        rw [releaseScan]
        simp only [hc', Bool.false_eq_true, if_false]
        rw [ih hrest]
        simp [List.filter_cons, hc']

lemma releaseScan_found_mem (time ownerId : Nat) (cmp : Nat → Bool)
    (request : Dict) (token : Option Dict) (l : List Nat) (p : Nat) (tk : Dict)
    (h : releaseScan time ownerId cmp request token l = Except.ok (some (p, tk))) :
    p ∈ l := by
  induction l with
  | nil => simp [releaseScan] at h
  | cons pid rest ih =>
      rw [releaseScan] at h
      by_cases hc : cmp pid = true
      · simp only [hc, if_true] at h
        cases hg : dictGet request pid with
        | none => simp only [hg] at h; cases h
        | some rq =>
            simp only [hg] at h
            cases token with
            | none => cases h
            | some tkk =>
                cases hgt : dictGet tkk pid with
                | none => simp only [hgt] at h; cases h
                | some tv =>
                    simp only [hgt] at h
                    by_cases hcmp : rq > tv
                    · rw [if_pos hcmp] at h
                      simp only [Except.ok.injEq, Option.some.injEq, Prod.mk.injEq] at h
                      rw [← h.1]
                      exact List.mem_cons_self pid rest
                    · rw [if_neg hcmp] at h
                      exact List.mem_cons_of_mem pid (ih h)
      · have hc' : cmp pid = false := by simpa using hc
        simp only [hc', Bool.false_eq_true, if_false] at h
        exact List.mem_cons_of_mem pid (ih h)

lemma releaseScan_no_match (time ownerId : Nat) (cmp : Nat → Bool)
    (request : Dict) (token : Option Dict) (l : List Nat)
    (h : ∀ p ∈ l, cmp p = false) :
    releaseScan time ownerId cmp request token l = Except.ok none := by
  induction l with
  | nil => simp [releaseScan]
  | cons pid rest ih =>
      rw [releaseScan]
      have hc : cmp pid = false := h pid (by simp)
      simp only [hc, Bool.false_eq_true, if_false]
      exact ih (fun p hp => h p (by simp [hp]))

lemma releaseScan_none_token_err (time ownerId : Nat) (cmp : Nat → Bool)
    (request : Dict) (l : List Nat)
    (h : ∃ p ∈ l, cmp p = true) :
    ∃ e, releaseScan time ownerId cmp request none l = Except.error e := by
  induction l with
  | nil => simp at h
  | cons pid rest ih =>
      rw [releaseScan]
      by_cases hc : cmp pid = true
      · simp only [hc, if_true]
        cases hg : dictGet request pid with
        | none => exact ⟨PyErr.keyError pid, rfl⟩
        | some rq => exact ⟨PyErr.typeError, rfl⟩
      · have hc' : cmp pid = false := by simpa using hc
        simp only [hc', Bool.false_eq_true, if_false]
        apply ih
        obtain ⟨p, hp, hcp⟩ := h
        rcases List.mem_cons.mp hp with he | he
        · exact absurd (he ▸ hcp) hc
        · exact ⟨p, he, hcp⟩

/-- The order in which `release` considers handoff candidates: the peers
with id above the owner's, then those below, each pass in the registry's
iteration order over the peer map. -/
def handoffOrder (ownerId : Nat) (peers : List Nat) : List Nat :=
  List.filter (fun q => decide (ownerId < q)) peers
    ++ List.filter (fun q => decide (q < ownerId)) peers

/-- `release`'s handoff condition for a candidate peer:
`request[q] > token[q]`. -/
def eligible (request tk : Dict) (q : Nat) : Bool :=
  decide ((dictGet tk q).getD 0 < (dictGet request q).getD 0)

lemma pyRelease_cases (ownerId : Nat) (peers : List Nat) (s : LockState) :
    ((pyRelease ownerId peers s).1 = [Event.lockAcquire, Event.lockRelease] ∧
      (pyRelease ownerId peers s).2 = PyOutcome.ok { s with state := TOKEN_PRESENT })
  ∨ (∃ e, (pyRelease ownerId peers s).1 = [Event.lockAcquire, Event.lockRelease] ∧
      (pyRelease ownerId peers s).2 = PyOutcome.err e { s with state := TOKEN_PRESENT })
  ∨ (∃ p tk, p ∈ peers ∧
      (pyRelease ownerId peers s).1 =
        [Event.lockAcquire, Event.callObtainToken p (pyPrepare tk), Event.lockRelease] ∧
      (pyRelease ownerId peers s).2 =
        PyOutcome.ok { s with state := NO_TOKEN, token := none }) := by
  cases h1 : releaseScan s.time ownerId (fun pid => decide (ownerId < pid)) s.request s.token peers with
  | error e =>
      right; left
      exact ⟨e, by simp [pyRelease, h1], by simp [pyRelease, h1]⟩
  | ok r1 =>
    cases r1 with
    | some ptk =>
        obtain ⟨p, tk⟩ := ptk
        right; right
        exact ⟨p, tk, releaseScan_found_mem _ _ _ _ _ _ _ _ h1,
          by simp [pyRelease, h1], by simp [pyRelease, h1]⟩
    | none =>
        cases h2 : releaseScan s.time ownerId (fun pid => decide (pid < ownerId)) s.request s.token peers with
        | error e =>
            right; left
            exact ⟨e, by simp [pyRelease, h1, h2], by simp [pyRelease, h1, h2]⟩
        | ok r2 =>
          cases r2 with
          | some ptk =>
              obtain ⟨p, tk⟩ := ptk
              right; right
              exact ⟨p, tk, releaseScan_found_mem _ _ _ _ _ _ _ _ h2,
                by simp [pyRelease, h1, h2], by simp [pyRelease, h1, h2]⟩
          | none =>
              left
              exact ⟨by simp [pyRelease, h1, h2], by simp [pyRelease, h1, h2]⟩

lemma pyRelease_find (ownerId : Nat) (peers : List Nat) (s : LockState) (tk : Dict)
    (htok : s.token = some tk)
    (hkeys : ∀ p ∈ peers, p ≠ ownerId →
      (dictGet s.request p).isSome = true ∧ (dictGet tk p).isSome = true) :
    pyRelease ownerId peers s =
      match List.find? (eligible s.request tk) (handoffOrder ownerId peers) with
      | some p =>
          ([Event.lockAcquire,
            Event.callObtainToken p (pyPrepare (dictInsert tk ownerId s.time)),
            Event.lockRelease],
           PyOutcome.ok { s with state := NO_TOKEN, token := none })
      | none =>
          ([Event.lockAcquire, Event.lockRelease],
           PyOutcome.ok { s with state := TOKEN_PRESENT }) := by
  have hk1 : ∀ p ∈ peers, (fun q => decide (ownerId < q)) p = true →
      (dictGet s.request p).isSome = true ∧ (dictGet tk p).isSome = true := by
    intro p hp hc
    exact hkeys p hp (by simp at hc; omega)
  have hk2 : ∀ p ∈ peers, (fun q => decide (q < ownerId)) p = true →
      (dictGet s.request p).isSome = true ∧ (dictGet tk p).isSome = true := by
    intro p hp hc
    exact hkeys p hp (by simp at hc; omega)
  have h1 := releaseScan_eq_find s.time ownerId (fun q => decide (ownerId < q))
    s.request tk peers hk1
  have h2 := releaseScan_eq_find s.time ownerId (fun q => decide (q < ownerId))
    s.request tk peers hk2
  unfold handoffOrder eligible
  rw [List.find?_append]
  cases hf1 : List.find? (fun q => decide ((dictGet tk q).getD 0 < (dictGet s.request q).getD 0))
      (List.filter (fun q => decide (ownerId < q)) peers) with
  | some p =>
      rw [hf1] at h1
      simp only [Option.map] at h1
      simp [pyRelease, htok, h1, Option.or]
  | none =>
      rw [hf1] at h1
      simp only [Option.map] at h1
      cases hf2 : List.find? (fun q => decide ((dictGet tk q).getD 0 < (dictGet s.request q).getD 0))
          (List.filter (fun q => decide (q < ownerId)) peers) with
      | some p =>
          rw [hf2] at h2
          simp only [Option.map] at h2
          simp [pyRelease, htok, h1, h2, Option.or]
      | none =>
          rw [hf2] at h2
          simp only [Option.map] at h2
          simp [pyRelease, htok, h1, h2, Option.or]

lemma pyRelease_stateOf_request (ownerId : Nat) (peers : List Nat) (s : LockState) :
    ((pyRelease ownerId peers s).2.stateOf).request = s.request := by
  rcases pyRelease_cases ownerId peers s with ⟨_, h⟩ | ⟨e, _, h⟩ | ⟨p, tk, _, _, h⟩ <;>
    simp [h, PyOutcome.stateOf]

/-- C9: for every token mapping (a dict, so with unique keys),
deserializing the serialized wire form reconstructs the original mapping:
`_unprepare(_prepare(m)) == m`, where `_prepare` produces the ordered
list of (key, value) pairs. -/
theorem C9_prepare_roundtrip (m : Dict) (h : (dictKeys m).Nodup) :
    pyUnprepare (pyPrepare m) = m :=
  pyUnprepare_pyPrepare m h

/-- Witness for C9 at the token `{3: 7, 5: 2}`. -/
theorem C9_prepare_roundtrip_witness :
    (dictKeys [(3, 7), (5, 2)]).Nodup ∧
    pyUnprepare (pyPrepare [(3, 7), (5, 2)]) = [(3, 7), (5, 2)] :=
  ⟨by decide, C9_prepare_roundtrip [(3, 7), (5, 2)] (by decide)⟩

/-- C10: a `request_token(time, pid)` call with `pid` absent from the
request dictionary raises `KeyError` before any mutation: the request
vector, token and state are all left unchanged (the `err` outcome carries
the unmodified fields `s`), and no entry is inserted for `pid`. -/
theorem C10_unknown_requester (ownerId : Nat) (peers : List Nat)
    (time pid : Nat) (s : LockState) (h : dictGet s.request pid = none) :
    pyRequestToken ownerId peers time pid s =
      ([Event.lockAcquire], PyOutcome.err (PyErr.keyError pid) s) := by
  simp [pyRequestToken, h]

/-- Witness for C10: a request from unregistered peer 7 on a fresh lock. -/
theorem C10_unknown_requester_witness :
    dictGet initState.request 7 = none ∧
    pyRequestToken 1 [2] 5 7 initState =
      ([Event.lockAcquire], PyOutcome.err (PyErr.keyError 7) initState) :=
  ⟨by decide, C10_unknown_requester 1 [2] 5 7 initState (by decide)⟩

/-- C3: with the token present and the peer map iterated in ascending id
order (the registry's map is not part of this source tree; the spec fixes
its iteration order as ascending), `release` scans peers above the
owner's id and then peers below it, and hands the token to the first peer
`p` with `request[p] > token[p]`: it records `token[owner] := time`, sets
`state := NO_TOKEN`, sends the entire updated token via `obtain_token`,
and clears the local token to `None`.  When no peer qualifies in either
pass, the state stays `TOKEN_PRESENT`, the token is unchanged and nothing
is sent. -/
theorem C3_release_two_pass (ownerId : Nat) (peers : List Nat)
    (s : LockState) (tk : Dict)
    (htok : s.token = some tk)
    (hsorted : List.Pairwise (fun a b => a < b) peers)
    (hkeys : ∀ p ∈ peers, p ≠ ownerId →
      (dictGet s.request p).isSome = true ∧ (dictGet tk p).isSome = true) :
    (∀ p, List.find? (eligible s.request tk) (handoffOrder ownerId peers) = some p →
        pyRelease ownerId peers s =
          ([Event.lockAcquire,
            Event.callObtainToken p (pyPrepare (dictInsert tk ownerId s.time)),
            Event.lockRelease],
           PyOutcome.ok { s with state := NO_TOKEN, token := none }))
  ∧ (List.find? (eligible s.request tk) (handoffOrder ownerId peers) = none →
      pyRelease ownerId peers s =
        ([Event.lockAcquire, Event.lockRelease],
         PyOutcome.ok { s with state := TOKEN_PRESENT })) := by
  constructor
  · intro p hp
    rw [pyRelease_find ownerId peers s tk htok hkeys, hp]
  · intro hp
    rw [pyRelease_find ownerId peers s tk htok hkeys, hp]

/-- Witness for C3, the spec's 3-peer scenario: owner 1, peers {2, 3},
`request[3] = 1 > token[3] = 0`, so the token goes to peer 3 carrying
`{1: 1, 2: 0, 3: 0}`. -/
theorem C3_release_two_pass_witness :
    pyRelease 1 [2, 3]
        { time := 1, token := some [(1, 0), (2, 0), (3, 0)],
          request := [(1, 0), (2, 0), (3, 1)], state := TOKEN_PRESENT } =
      ([Event.lockAcquire,
        Event.callObtainToken 3 (pyPrepare (dictInsert [(1, 0), (2, 0), (3, 0)] 1 1)),
        Event.lockRelease],
       PyOutcome.ok { time := 1, token := none,
                      request := [(1, 0), (2, 0), (3, 1)], state := NO_TOKEN }) := by
  have h := C3_release_two_pass 1 [2, 3]
    { time := 1, token := some [(1, 0), (2, 0), (3, 0)],
      request := [(1, 0), (2, 0), (3, 1)], state := TOKEN_PRESENT }
    [(1, 0), (2, 0), (3, 0)] rfl (by decide) (by decide)
  exact h.1 3 (by decide)

/-- C4: a `request_token(time, pid)` call with `pid` registered merges
`request[pid] := max(request[pid], time)` — so every request-vector
entry is non-decreasing whatever the arrival order — and then: with
`TOKEN_HELD` or `NO_TOKEN` nothing else changes; with `TOKEN_PRESENT`
the handler performs exactly a `release` on the merged state. -/
theorem C4_request_token_merge (ownerId : Nat) (peers : List Nat)
    (time pid : Nat) (s : LockState) (r : Nat)
    (hr : dictGet s.request pid = some r) :
    (((pyRequestToken ownerId peers time pid s).2.stateOf).request =
        dictInsert s.request pid (max r time))
  ∧ (∀ q, (dictGet s.request q).getD 0 ≤
        (dictGet (((pyRequestToken ownerId peers time pid s).2.stateOf).request) q).getD 0)
  ∧ ((s.state = TOKEN_HELD ∨ s.state = NO_TOKEN) →
      pyRequestToken ownerId peers time pid s =
        ([Event.lockAcquire, Event.lockRelease],
         PyOutcome.ok { s with request := dictInsert s.request pid (max r time) }))
  ∧ (s.state = TOKEN_PRESENT →
      (pyRequestToken ownerId peers time pid s).2 =
        (pyRelease ownerId peers
          { s with request := dictInsert s.request pid (max r time) }).2) := by
  have hreq : ((pyRequestToken ownerId peers time pid s).2.stateOf).request =
      dictInsert s.request pid (max r time) := by
    by_cases hst : s.state = TOKEN_PRESENT
    · simp only [pyRequestToken, hr]
      simp only [hst, if_true]
      rw [pyRelease_stateOf_request]
    · simp [pyRequestToken, hr, hst, PyOutcome.stateOf]
  refine ⟨hreq, ?_, ?_, ?_⟩
  · intro q
    rw [hreq]
    by_cases hq : q = pid
    · subst hq
      rw [dictGet_insert_self, hr]
      simp
    · rw [dictGet_insert_ne s.request pid (max r time) q hq]
  · intro hst
    have hne : ¬ s.state = TOKEN_PRESENT := by
      rcases hst with h | h <;> rw [h] <;> simp [TOKEN_HELD, NO_TOKEN, TOKEN_PRESENT]
    simp [pyRequestToken, hr, hne]
  · intro hst
    simp [pyRequestToken, hr, hst]

/-- Witness for C4: peer 1's request with timestamp 5 arriving at idle
owner 2 that holds no token entry conflict (state `NO_TOKEN`). -/
theorem C4_request_token_merge_witness :
    ((pyRequestToken 2 [1] 5 1
        { time := 0, token := none, request := [(1, 0)], state := NO_TOKEN }).2.stateOf).request =
      dictInsert [(1, 0)] 1 (max 0 5) :=
  (C4_request_token_merge 2 [1] 5 1
    { time := 0, token := none, request := [(1, 0)], state := NO_TOKEN } 0 (by decide)).1

/-- C8 counterexample: `release` invoked in `NO_TOKEN` (token `None`)
with an empty peer map raises nothing — it silently returns leaving the
peer in `TOKEN_PRESENT` with a `None` token, contradicting the claim
that a token-less `release` always fails fast. -/
theorem C8_failfast_cex :
    pyRelease 1 [] { time := 0, token := none, request := [], state := NO_TOKEN } =
      ([Event.lockAcquire, Event.lockRelease],
       PyOutcome.ok { time := 0, token := none, request := [], state := TOKEN_PRESENT }) := by
  decide

/-- C8 amended: a token-less `release` raises (`KeyError` or `TypeError`)
whenever the peer map holds some peer other than the owner, and
`unregister_peer` with an id absent from the maps always raises (with the
fields unchanged); but with a peer map containing no foreign peer a
token-less `release` silently flips the state to `TOKEN_PRESENT`. -/
theorem C8_failfast_amended :
    (∀ (ownerId : Nat) (peers : List Nat) (s : LockState), s.token = none →
      (∃ p ∈ peers, p ≠ ownerId) →
      ∃ e, (pyRelease ownerId peers s).2 = PyOutcome.err e { s with state := TOKEN_PRESENT })
  ∧ (∀ (ownerId : Nat) (peers : List Nat) (s : LockState), s.token = none →
      (∀ p ∈ peers, p = ownerId) →
      (pyRelease ownerId peers s).2 = PyOutcome.ok { s with state := TOKEN_PRESENT })
  ∧ (∀ (s : LockState) (pid : Nat), dictHas s.request pid = false →
      (∀ tk, s.token = some tk → dictHas tk pid = false) →
      ∃ e, (pyUnregisterPeer s pid).2 = PyOutcome.err e s) := by
  refine ⟨?_, ?_, ?_⟩
  · intro ownerId peers s htok hex
    by_cases hgt : ∃ q ∈ peers, decide (ownerId < q) = true
    · obtain ⟨e, he⟩ := releaseScan_none_token_err s.time ownerId
        (fun q => decide (ownerId < q)) s.request peers hgt
      refine ⟨e, ?_⟩
      simp [pyRelease, htok, he]
    · have hno : ∀ q ∈ peers, (fun q => decide (ownerId < q)) q = false := by
        intro q hq
        by_contra hc
        exact hgt ⟨q, hq, by simpa using hc⟩
      have h1 := releaseScan_no_match s.time ownerId (fun q => decide (ownerId < q))
        s.request none peers hno
      obtain ⟨p, hp, hpne⟩ := hex
      have hlt : p < ownerId := by
        have hnl : ¬ ownerId < p := by
          intro hc
          exact hgt ⟨p, hp, by simpa using hc⟩
        omega
      obtain ⟨e, he⟩ := releaseScan_none_token_err s.time ownerId
        (fun q => decide (q < ownerId)) s.request peers ⟨p, hp, by simpa using hlt⟩
      refine ⟨e, ?_⟩
      simp [pyRelease, htok, h1, he]
  · intro ownerId peers s htok hall
    have hno1 : ∀ q ∈ peers, (fun q => decide (ownerId < q)) q = false := by
      intro q hq
      have hq' := hall q hq
      simp [hq']
    have hno2 : ∀ q ∈ peers, (fun q => decide (q < ownerId)) q = false := by
      intro q hq
      have hq' := hall q hq
      simp [hq']
    have h1 := releaseScan_no_match s.time ownerId (fun q => decide (ownerId < q))
      s.request none peers hno1
    have h2 := releaseScan_no_match s.time ownerId (fun q => decide (q < ownerId))
      s.request none peers hno2
    simp [pyRelease, htok, h1, h2]
  · intro s pid hreq htokh
    by_cases hcust : s.state = TOKEN_HELD ∨ s.state = TOKEN_PRESENT
    · cases htk : s.token with
      | none =>
          refine ⟨PyErr.typeError, ?_⟩
          simp [pyUnregisterPeer, hcust, htk]
      | some tk =>
          have hhas : dictHas tk pid = false := htokh tk htk
          refine ⟨PyErr.keyError pid, ?_⟩
          simp [pyUnregisterPeer, hcust, htk, hhas]
    · refine ⟨PyErr.keyError pid, ?_⟩
      simp [pyUnregisterPeer, hcust, hreq]

/-- Witness for the amended C8: token-less `release` by owner 1 with
foreign peer 2 raises; `unregister_peer(9)` on a fresh lock raises. -/
theorem C8_failfast_amended_witness :
    (∃ e, (pyRelease 1 [2]
        { time := 0, token := none, request := [(2, 1)], state := NO_TOKEN }).2 =
      PyOutcome.err e { time := 0, token := none, request := [(2, 1)], state := TOKEN_PRESENT }) ∧
    (∃ e, (pyUnregisterPeer initState 9).2 = PyOutcome.err e initState) :=
  ⟨C8_failfast_amended.1 1 [2]
      { time := 0, token := none, request := [(2, 1)], state := NO_TOKEN }
      rfl ⟨2, by decide, by decide⟩,
   C8_failfast_amended.2.2 initState 9 (by decide) (by intro tk h; cases h)⟩

lemma callsUnderGuard_broadcast (ownerId t : Nat) (l : List Nat) (rest : List Event) :
    callsUnderGuard
      (List.map (fun pid => Event.callRequestToken pid t ownerId) l ++ rest) 0 =
      callsUnderGuard rest 0 := by
  induction l with
  | nil => simp
  | cons a tl ih => simpa [callsUnderGuard] using ih

/-- C6 counterexample: a `release` that hands the token off performs the
remote `obtain_token` stub call between acquiring and releasing the
registry guard, so the guard is held while the remote call is in
flight — refuting the claim that no operation calls out under the
guard. -/
theorem C6_guard_cex :
    callsUnderGuard
      (pyRelease 1 [2]
        { time := 5, token := some [(1, 0), (2, 0)],
          request := [(1, 0), (2, 1)], state := TOKEN_HELD }).1 0 = true := by
  decide

/-- C6 amended: `acquire` does drop the guard before broadcasting
`request_token` (no stub call in its trace runs under the guard), but
`release` — and therefore `destroy`, which reuses it and adds its own
forced handoff — performs every remote `obtain_token` call while the
guard is held. -/
theorem C6_guard_amended :
    (∀ (ownerId : Nat) (peers : List Nat) (s : LockState),
      callsUnderGuard (pyAcquireEvents ownerId peers s) 0 = false)
  ∧ (∀ (ownerId : Nat) (peers : List Nat) (s : LockState) (p : Nat) (pl : List (Nat × Nat)),
      Event.callObtainToken p pl ∈ (pyRelease ownerId peers s).1 →
      callsUnderGuard (pyRelease ownerId peers s).1 0 = true)
  ∧ (∀ (ownerId : Nat) (peers : List Nat) (s : LockState) (p : Nat) (pl : List (Nat × Nat)),
      Event.callObtainToken p pl ∈ (pyDestroy ownerId peers s).1 →
      callsUnderGuard (pyDestroy ownerId peers s).1 0 = true) := by
  refine ⟨?_, ?_, ?_⟩
  · intro ownerId peers s
    unfold pyAcquireEvents
    by_cases h : s.state = NO_TOKEN
    · simp only [h, if_true, List.cons_append, List.nil_append, callsUnderGuard]
      simpa using callsUnderGuard_broadcast ownerId (s.time + 1) peers
        [Event.lockAcquire, Event.lockRelease]
    · simp only [h, if_false]
      decide
  · intro ownerId peers s p pl hmem
    rcases pyRelease_cases ownerId peers s with ⟨h1, _⟩ | ⟨e, h1, _⟩ | ⟨q, tk, _, h1, _⟩
    · rw [h1] at hmem
      simp at hmem
    · rw [h1] at hmem
      simp at hmem
    · rw [h1]
      simp [callsUnderGuard]
  · intro ownerId peers s p pl hmem
    cases peers with
    | nil =>
        simp only [pyDestroy] at hmem
        simp at hmem
    | cons pid0 rest =>
        by_cases hcust : s.state = TOKEN_HELD ∨ s.state = TOKEN_PRESENT
        · rcases pyRelease_cases ownerId (pid0 :: rest) s with
            ⟨h1, h2⟩ | ⟨e, h1, h2⟩ | ⟨q, tk, hq, h1, h2⟩
          · have hpair : pyRelease ownerId (pid0 :: rest) s =
                ([Event.lockAcquire, Event.lockRelease],
                 PyOutcome.ok { s with state := TOKEN_PRESENT }) := by
              calc pyRelease ownerId (pid0 :: rest) s
                  = ((pyRelease ownerId (pid0 :: rest) s).1,
                     (pyRelease ownerId (pid0 :: rest) s).2) := rfl
                _ = _ := by rw [h1, h2]
            have hcust2 : s.state = 2 ∨ s.state = 1 := by
              simpa [TOKEN_HELD, TOKEN_PRESENT] using hcust
            cases htk : s.token with
            | none =>
                simp [pyDestroy, hcust2, hpair, htk, TOKEN_PRESENT, NO_TOKEN, TOKEN_HELD] at hmem
            | some tk0 =>
                simp [pyDestroy, hcust2, hpair, htk, TOKEN_PRESENT, NO_TOKEN, TOKEN_HELD,
                  callsUnderGuard]
          · have hpair : pyRelease ownerId (pid0 :: rest) s =
                ([Event.lockAcquire, Event.lockRelease],
                 PyOutcome.err e { s with state := TOKEN_PRESENT }) := by
              calc pyRelease ownerId (pid0 :: rest) s
                  = ((pyRelease ownerId (pid0 :: rest) s).1,
                     (pyRelease ownerId (pid0 :: rest) s).2) := rfl
                _ = _ := by rw [h1, h2]
            simp [pyDestroy, hcust, hpair] at hmem
          · have hpair : pyRelease ownerId (pid0 :: rest) s =
                ([Event.lockAcquire, Event.callObtainToken q (pyPrepare tk),
                  Event.lockRelease],
                 PyOutcome.ok { s with state := NO_TOKEN, token := none }) := by
              calc pyRelease ownerId (pid0 :: rest) s
                  = ((pyRelease ownerId (pid0 :: rest) s).1,
                     (pyRelease ownerId (pid0 :: rest) s).2) := rfl
                _ = _ := by rw [h1, h2]
            simp [pyDestroy, hcust, hpair, callsUnderGuard]
        · simp [pyDestroy, hcust] at hmem

/-- Witness for the amended C6: a concrete `acquire` broadcast runs with
the guard free, and a concrete token handoff in `release` runs with the
guard held. -/
theorem C6_guard_amended_witness :
    callsUnderGuard (pyAcquireEvents 1 [2, 3] initState) 0 = false ∧
    callsUnderGuard
      (pyRelease 1 [2]
        { time := 5, token := some [(1, 0), (2, 0)],
          request := [(1, 0), (2, 1)], state := TOKEN_HELD }).1 0 = true :=
  ⟨C6_guard_amended.1 1 [2, 3] initState,
   C6_guard_amended.2.1 1 [2]
     { time := 5, token := some [(1, 0), (2, 0)],
       request := [(1, 0), (2, 1)], state := TOKEN_HELD }
     2 (pyPrepare (dictInsert [(1, 0), (2, 0)] 1 5)) (by decide)⟩

/-- C7: when `destroy` runs with the token (`TOKEN_PRESENT` or
`TOKEN_HELD`) and a non-empty peer map, the token is transferred to some
remaining peer: a `release` runs first, and if the token is still local
afterwards it is forcibly sent to the registry's first peer via
`obtain_token`; with an empty peer map nothing is sent and the token is
simply dropped with the object. -/
theorem C7_destroy_transfers (ownerId : Nat) (peers : List Nat)
    (s : LockState) (tk : Dict)
    (htok : s.token = some tk)
    (hst : s.state = TOKEN_PRESENT ∨ s.state = TOKEN_HELD)
    (hkeys : ∀ p ∈ peers, p ≠ ownerId →
      (dictGet s.request p).isSome = true ∧ (dictGet tk p).isSome = true) :
    (peers ≠ [] → ∃ p pl, p ∈ peers ∧
        Event.callObtainToken p pl ∈ (pyDestroy ownerId peers s).1)
  ∧ (peers = [] →
      pyDestroy ownerId peers s =
        ([Event.lockAcquire, Event.lockRelease], PyOutcome.ok s)) := by
  constructor
  · intro hne
    cases peers with
    | nil => exact absurd rfl hne
    | cons pid0 rest =>
        have hcust : s.state = TOKEN_HELD ∨ s.state = TOKEN_PRESENT := hst.symm
        have hrel := pyRelease_find ownerId (pid0 :: rest) s tk htok hkeys
        cases hf : List.find? (eligible s.request tk)
            (handoffOrder ownerId (pid0 :: rest)) with
        | some p =>
            rw [hf] at hrel
            have hpmem : p ∈ pid0 :: rest := by
              have h1 := List.mem_of_find?_eq_some hf
              unfold handoffOrder at h1
              rcases List.mem_append.mp h1 with h2 | h2
              · exact (List.mem_filter.mp h2).1
              · exact (List.mem_filter.mp h2).1
            refine ⟨p, pyPrepare (dictInsert tk ownerId s.time), hpmem, ?_⟩
            simp [pyDestroy, hcust, hrel]
        | none =>
            rw [hf] at hrel
            refine ⟨pid0, pyPrepare tk, List.mem_cons_self pid0 rest, ?_⟩
            have hcust2 : s.state = 2 ∨ s.state = 1 := by
              simpa [TOKEN_HELD, TOKEN_PRESENT] using hcust
            simp [pyDestroy, hcust2, hrel, htok, TOKEN_PRESENT, NO_TOKEN, TOKEN_HELD]
  · intro hnil
    subst hnil
    rfl

/-- Witness for C7, the spec's departure scenario: peer 1 idle with the
token and no pending request hands it to the only remaining peer 2. -/
theorem C7_destroy_transfers_witness :
    ∃ p pl, p ∈ [2] ∧
      Event.callObtainToken p pl ∈
        (pyDestroy 1 [2]
          { time := 3, token := some [(1, 0), (2, 0)],
            request := [(1, 0), (2, 0)], state := TOKEN_PRESENT }).1 :=
  (C7_destroy_transfers 1 [2]
    { time := 3, token := some [(1, 0), (2, 0)],
      request := [(1, 0), (2, 0)], state := TOKEN_PRESENT }
    [(1, 0), (2, 0)] rfl (Or.inl rfl) (by decide)).1 (by decide)

lemma dictHas_congr_keys (d e : Dict) (k : Nat) (h : dictKeys d = dictKeys e) :
    dictHas d k = dictHas e k := by
  by_cases hk : k ∈ dictKeys e
  · have h1 : dictHas d k = true := by
      rw [dictHas_iff_mem_keys, h]
      exact hk
    have h2 : dictHas e k = true := (dictHas_iff_mem_keys e k).mpr hk
    rw [h1, h2]
  · have h1 : dictHas d k = false := by
      rw [← Bool.not_eq_true]
      intro hc
      rw [dictHas_iff_mem_keys, h] at hc
      exact hk hc
    have h2 : dictHas e k = false := by
      rw [← Bool.not_eq_true]
      intro hc
      exact hk ((dictHas_iff_mem_keys e k).mp hc)
    rw [h1, h2]

/-- C5 counterexample: after `initialize` by owner 1 with peers {2, 3},
the token is `{1: 0}` (one entry) while the request vector has two
entries — `len(Token) != len(RequestVector)`, so the claimed key-set
invariant fails right after `initialize`. -/
theorem C5_keyset_cex :
    (pyInit 1 [2, 3] initState).token = some [(1, 0)] ∧
    dictLen [(1, 0)] = 1 ∧
    dictLen (pyInit 1 [2, 3] initState).request = 2 := by
  decide

/-- C5 amended: `register_peer` and `unregister_peer` do preserve the
equality of the token's and the request vector's key sets (and lengths)
when it holds on entry, but `initialize` creates the token with the
single key `{owner}` while the request vector covers every current peer,
so the claimed invariant holds after `initialize` only for a peer whose
view has no other member. -/
theorem C5_keyset_amended :
    (∀ (s : LockState) (pid : Nat) (tk : Dict),
      (s.state = TOKEN_HELD ∨ s.state = TOKEN_PRESENT) →
      s.token = some tk → dictKeys tk = dictKeys s.request →
      ∃ tk', ((pyRegisterPeer s pid).2.stateOf).token = some tk' ∧
        dictKeys tk' = dictKeys ((pyRegisterPeer s pid).2.stateOf).request ∧
        dictLen tk' = dictLen ((pyRegisterPeer s pid).2.stateOf).request)
  ∧ (∀ (s : LockState) (pid : Nat) (tk : Dict),
      (s.state = TOKEN_HELD ∨ s.state = TOKEN_PRESENT) →
      s.token = some tk → dictKeys tk = dictKeys s.request →
      ∃ tk', ((pyUnregisterPeer s pid).2.stateOf).token = some tk' ∧
        dictKeys tk' = dictKeys ((pyUnregisterPeer s pid).2.stateOf).request ∧
        dictLen tk' = dictLen ((pyUnregisterPeer s pid).2.stateOf).request)
  ∧ (∀ (ownerId : Nat) (peers : List Nat) (tk : Dict),
      (pyInit ownerId peers initState).token = some tk →
      dictKeys tk = [ownerId]) := by
  refine ⟨?_, ?_, ?_⟩
  · intro s pid tk hcust htk hkeq
    have hpair : pyRegisterPeer s pid =
        ([Event.lockAcquire, Event.lockRelease],
         PyOutcome.ok { s with token := some (dictInsert tk pid 0),
                               request := dictInsert s.request pid 0 }) := by
      simp [pyRegisterPeer, hcust, htk]
    have hkeys' : dictKeys (dictInsert tk pid 0) = dictKeys (dictInsert s.request pid 0) := by
      rw [dictKeys_insert, dictKeys_insert, dictHas_congr_keys tk s.request pid hkeq, hkeq]
    refine ⟨dictInsert tk pid 0, by rw [hpair]; rfl, ?_, ?_⟩
    · rw [hpair]
      simpa [PyOutcome.stateOf] using hkeys'
    · rw [hpair]
      show dictLen (dictInsert tk pid 0) = dictLen (dictInsert s.request pid 0)
      rw [dictLen_eq_keys_length, dictLen_eq_keys_length, hkeys']
  · intro s pid tk hcust htk hkeq
    have hhas : dictHas tk pid = dictHas s.request pid :=
      dictHas_congr_keys tk s.request pid hkeq
    by_cases hp : dictHas tk pid = true
    · have hpr : dictHas s.request pid = true := by rw [← hhas]; exact hp
      have hpair : pyUnregisterPeer s pid =
          ([Event.lockAcquire, Event.lockRelease],
           PyOutcome.ok { s with token := some (dictDel tk pid),
                                 request := dictDel s.request pid }) := by
        simp [pyUnregisterPeer, hcust, htk, hp, hpr]
      have hkeys' : dictKeys (dictDel tk pid) = dictKeys (dictDel s.request pid) := by
        rw [dictKeys_del, dictKeys_del, hkeq]
      refine ⟨dictDel tk pid, by rw [hpair]; rfl, ?_, ?_⟩
      · rw [hpair]
        simpa [PyOutcome.stateOf] using hkeys'
      · rw [hpair]
        show dictLen (dictDel tk pid) = dictLen (dictDel s.request pid)
        rw [dictLen_eq_keys_length, dictLen_eq_keys_length, dictKeys_del, dictKeys_del, hkeq]
    · have hp' : dictHas tk pid = false := by simpa using hp
      have hpair : pyUnregisterPeer s pid =
          ([Event.lockAcquire, Event.lockRelease],
           PyOutcome.err (PyErr.keyError pid) s) := by
        simp [pyUnregisterPeer, hcust, htk, hp']
      refine ⟨tk, ?_, ?_, ?_⟩
      · rw [hpair]
        exact htk
      · rw [hpair]
        exact hkeq
      · rw [hpair]
        show dictLen tk = dictLen s.request
        rw [dictLen_eq_keys_length, dictLen_eq_keys_length, hkeq]
  · intro ownerId peers tk htk
    have hkeys0 : dictKeys (dictInsert [] ownerId 0) = [ownerId] := by
      simp [dictInsert, dictKeys]
    cases hh : (pySorted peers).head? with
    | none =>
        rw [show (pyInit ownerId peers initState).token = some (dictInsert [] ownerId 0) by
          simp [pyInit, hh, initState]] at htk
        simp at htk
        rw [← htk]
        exact hkeys0
    | some m =>
        by_cases h : m ≥ ownerId
        · rw [show (pyInit ownerId peers initState).token = some (dictInsert [] ownerId 0) by
            simp [pyInit, hh, initState, h]] at htk
          simp at htk
          rw [← htk]
          exact hkeys0
        · rw [show (pyInit ownerId peers initState).token = none by
            simp [pyInit, hh, initState, h]] at htk
          cases htk

/-- Witness for the amended C5: registering peer 5 at a custodian whose
token and request vector both hold exactly key 1. -/
theorem C5_keyset_amended_witness :
    ∃ tk', ((pyRegisterPeer
        { time := 0, token := some [(1, 0)], request := [(1, 0)],
          state := TOKEN_PRESENT } 5).2.stateOf).token = some tk' ∧
      dictKeys tk' = dictKeys ((pyRegisterPeer
        { time := 0, token := some [(1, 0)], request := [(1, 0)],
          state := TOKEN_PRESENT } 5).2.stateOf).request ∧
      dictLen tk' = dictLen ((pyRegisterPeer
        { time := 0, token := some [(1, 0)], request := [(1, 0)],
          state := TOKEN_PRESENT } 5).2.stateOf).request :=
  C5_keyset_amended.1
    { time := 0, token := some [(1, 0)], request := [(1, 0)],
      state := TOKEN_PRESENT } 5 [(1, 0)] (Or.inr rfl) rfl (by decide)

lemma exists_list_min (P : List Nat) (h : P ≠ []) :
    ∃ m ∈ P, ∀ j ∈ P, m ≤ j := by
  induction P with
  | nil => exact absurd rfl h
  | cons a t ih =>
      cases t with
      | nil =>
          refine ⟨a, by simp, ?_⟩
          intro j hj
          rcases List.mem_cons.mp hj with hj | hj
          · omega
          · cases hj
      | cons b u =>
          obtain ⟨m, hm, hall⟩ := ih (by simp)
          by_cases hle : a ≤ m
          · refine ⟨a, by simp, ?_⟩
            intro j hj
            rcases List.mem_cons.mp hj with hj | hj
            · omega
            · exact Nat.le_trans hle (hall j hj)
          · refine ⟨m, List.mem_cons_of_mem a hm, ?_⟩
            intro j hj
            rcases List.mem_cons.mp hj with hj | hj
            · subst hj; omega
            · exact hall j hj

lemma pyInit_state_custodian (ownerId : Nat) (peers : List Nat) (s : LockState)
    (h : ∀ j ∈ peers, ownerId ≤ j) :
    (pyInit ownerId peers s).state = TOKEN_PRESENT ∧
    (pyInit ownerId peers s).token = some (dictInsert [] ownerId 0) := by
  cases hh : (pySorted peers).head? with
  | none => constructor <;> simp [pyInit, hh]
  | some m =>
      have hom : ownerId ≤ m := h m (pySorted_head_min peers m hh).1
      constructor <;> simp [pyInit, hh, hom]

lemma pyInit_state_not_custodian (ownerId : Nat) (peers : List Nat) (s : LockState)
    (h : ∃ j ∈ peers, j < ownerId) :
    (pyInit ownerId peers s).state = NO_TOKEN ∧
    (pyInit ownerId peers s).token = s.token := by
  obtain ⟨j, hj, hjlt⟩ := h
  have hne : peers ≠ [] := by
    intro he
    subst he
    cases hj
  obtain ⟨m, hm⟩ := pySorted_head_exists peers hne
  have hmin := pySorted_head_min peers m hm
  have hnge : ¬ ownerId ≤ m := by
    have := hmin.2 j hj
    omega
  constructor <;> simp [pyInit, hm, hnge]

lemma foldl_dictInsert_zero_get_of_not_mem (l : List Nat) :
    ∀ (d : Dict) (j : Nat), j ∉ l →
      dictGet (List.foldl (fun r p => dictInsert r p 0) d l) j = dictGet d j := by
  induction l with
  | nil => intro d j _; rfl
  | cons a t ih =>
      intro d j hj
      have hja : j ≠ a := fun he => hj (he ▸ List.mem_cons_self a t)
      have hjt : j ∉ t := fun hc => hj (List.mem_cons_of_mem a hc)
      rw [List.foldl_cons, ih (dictInsert d a 0) j hjt, dictGet_insert_ne d a 0 j hja]

lemma foldl_dictInsert_zero_get (l : List Nat) :
    ∀ (d : Dict) (j : Nat), j ∈ l →
      dictGet (List.foldl (fun r p => dictInsert r p 0) d l) j = some 0 := by
  induction l with
  | nil =>
      intro d j hj
      cases hj
  | cons a t ih =>
      intro d j hj
      by_cases hjt : j ∈ t
      · rw [List.foldl_cons]
        exact ih (dictInsert d a 0) j hjt
      · have hja : j = a := by
          rcases List.mem_cons.mp hj with h | h
          · exact h
          · exact absurd h hjt
        subst hja
        rw [List.foldl_cons, foldl_dictInsert_zero_get_of_not_mem t (dictInsert d j 0) j hjt,
          dictGet_insert_self]

lemma pyInit_request_get (ownerId : Nat) (peers : List Nat) (s : LockState)
    (j : Nat) (hj : j ∈ peers) :
    dictGet (pyInit ownerId peers s).request j = some 0 := by
  have hreq : (pyInit ownerId peers s).request =
      List.foldl (fun r p => dictInsert r p 0) s.request peers := by
    cases hh : (pySorted peers).head? with
    | none => simp [pyInit, hh]
    | some m => by_cases h : ownerId ≤ m <;> simp [pyInit, hh, h]
  rw [hreq]
  exact foldl_dictInsert_zero_get peers s.request j hj

/-- The registry's peer map as seen by peer `i` of the static peer set
`P`: every member except `i` itself (a peer holds stubs only to the
other peers). -/
def viewOf (P : List Nat) (i : Nat) : List Nat :=
  List.filter (fun j => j ≠ i) P

lemma mem_viewOf (P : List Nat) (i j : Nat) :
    j ∈ viewOf P i ↔ j ∈ P ∧ j ≠ i := by
  unfold viewOf
  rw [List.mem_filter]
  simp

/-- C2: for a non-empty static peer set with unique ids, after every peer
runs `initialize` (each over its own view of the others), exactly one
peer — the one with the minimum id — ends in `TOKEN_PRESENT` holding
`Token = {self: 0}`; every other peer ends in `NO_TOKEN` with token
`None`; and every peer's request vector maps each of its current peers
to 0. -/
theorem C2_initial_custodian (P : List Nat) (hne : P ≠ []) (hnd : P.Nodup) :
    ∃ m ∈ P, (∀ j ∈ P, m ≤ j) ∧
      (∀ i ∈ P, ((pyInit i (viewOf P i) initState).state = TOKEN_PRESENT ↔ i = m)) ∧
      (pyInit m (viewOf P m) initState).token = some [(m, 0)] ∧
      (∀ i ∈ P, i ≠ m → (pyInit i (viewOf P i) initState).state = NO_TOKEN ∧
          (pyInit i (viewOf P i) initState).token = none) ∧
      (∀ i ∈ P, ∀ j ∈ viewOf P i,
          dictGet (pyInit i (viewOf P i) initState).request j = some 0) := by
  obtain ⟨m, hmP, hmin⟩ := exists_list_min P hne
  have hview_min : ∀ j ∈ viewOf P m, m ≤ j := by
    intro j hj
    exact hmin j ((mem_viewOf P m j).mp hj).1
  have hnotcust : ∀ i ∈ P, i ≠ m →
      (pyInit i (viewOf P i) initState).state = NO_TOKEN ∧
      (pyInit i (viewOf P i) initState).token = none := by
    intro i hi him
    have hmlt : m < i := by
      have h1 := hmin i hi
      omega
    have hmem : m ∈ viewOf P i := (mem_viewOf P i m).mpr ⟨hmP, by omega⟩
    have := pyInit_state_not_custodian i (viewOf P i) initState ⟨m, hmem, hmlt⟩
    exact ⟨this.1, this.2⟩
  refine ⟨m, hmP, hmin, ?_, ?_, hnotcust, ?_⟩
  · intro i hi
    constructor
    · intro hst
      by_contra him
      have h1 := (hnotcust i hi him).1
      rw [h1] at hst
      simp [NO_TOKEN, TOKEN_PRESENT] at hst
    · intro him
      subst him
      exact (pyInit_state_custodian i (viewOf P i) initState hview_min).1
  · have h1 := (pyInit_state_custodian m (viewOf P m) initState hview_min).2
    rw [h1]
    simp [dictInsert]
  · intro i hi j hj
    exact pyInit_request_get i (viewOf P i) initState j hj

/-- Witness for C2 at the peer set {2, 1, 3}. -/
theorem C2_initial_custodian_witness :
    ∃ m ∈ [2, 1, 3], (∀ j ∈ [2, 1, 3], m ≤ j) ∧
      (∀ i ∈ [2, 1, 3],
        ((pyInit i (viewOf [2, 1, 3] i) initState).state = TOKEN_PRESENT ↔ i = m)) ∧
      (pyInit m (viewOf [2, 1, 3] m) initState).token = some [(m, 0)] ∧
      (∀ i ∈ [2, 1, 3], i ≠ m →
        (pyInit i (viewOf [2, 1, 3] i) initState).state = NO_TOKEN ∧
        (pyInit i (viewOf [2, 1, 3] i) initState).token = none) ∧
      (∀ i ∈ [2, 1, 3], ∀ j ∈ viewOf [2, 1, 3] i,
        dictGet (pyInit i (viewOf [2, 1, 3] i) initState).request j = some 0) :=
  C2_initial_custodian [2, 1, 3] (by decide) (by decide)

/-- Number of elements of the list satisfying the Boolean predicate. -/
def countIf (p : Nat → Bool) : List Nat → Nat
  | [] => 0
  | a :: l => (if p a then 1 else 0) + countIf p l

lemma countIf_congr (l : List Nat) (p q : Nat → Bool)
    (h : ∀ j ∈ l, p j = q j) : countIf p l = countIf q l := by
  induction l with
  | nil => rfl
  | cons a t ih =>
      simp only [countIf]
      rw [h a (by simp), ih (fun j hj => h j (by simp [hj]))]

lemma countIf_eq_zero_iff (p : Nat → Bool) (l : List Nat) :
    countIf p l = 0 ↔ ∀ j ∈ l, p j = false := by
  induction l with
  | nil => simp [countIf]
  | cons a t ih =>
      simp only [countIf]
      by_cases hpa : p a = true
      · simp only [hpa, if_true]
        constructor
        · intro h
          omega
        · intro h
          have h2 := h a (by simp)
          rw [h2] at hpa
          cases hpa
      · have hpa' : p a = false := by simpa using hpa
        simp only [hpa', Bool.false_eq_true, if_false, Nat.zero_add]
        constructor
        · intro h j hj
          rcases List.mem_cons.mp hj with he | hjt
          · subst he
            exact hpa'
          · exact ih.mp h j hjt
        · intro h
          exact ih.mpr (fun j hj => h j (by simp [hj]))

lemma countIf_le_of_imp (p q : Nat → Bool) (l : List Nat)
    (h : ∀ j ∈ l, p j = true → q j = true) :
    countIf p l ≤ countIf q l := by
  induction l with
  | nil => simp [countIf]
  | cons a t ih =>
      simp only [countIf]
      have ht := ih (fun j hj => h j (by simp [hj]))
      by_cases hpa : p a = true
      · rw [hpa, h a (by simp) hpa]
        omega
      · have hpa' : p a = false := by simpa using hpa
        rw [hpa']
        have : (if (false : Bool) then 1 else 0) = 0 := rfl
        omega

lemma countIf_eq_one_of_unique (p : Nat → Bool) (l : List Nat) (hl : l.Nodup)
    (m : Nat) (hm : m ∈ l) (h : ∀ j ∈ l, (p j = true ↔ j = m)) :
    countIf p l = 1 := by
  induction l with
  | nil => cases hm
  | cons a t ih =>
      have hnd := List.nodup_cons.mp hl
      simp only [countIf]
      rcases List.mem_cons.mp hm with he | hmt
      · subst he
        have hpa : p m = true := (h m (by simp)).mpr rfl
        have hzero : countIf p t = 0 := by
          rw [countIf_eq_zero_iff]
          intro j hj
          by_contra hc
          have hj' : p j = true := by simpa using hc
          have hje := (h j (by simp [hj])).mp hj'
          exact hnd.1 (hje ▸ hj)
        simp [hpa, hzero]
      · have hpa : p a = false := by
          by_contra hc
          have hpa' : p a = true := by simpa using hc
          have hae := (h a (by simp)).mp hpa'
          exact hnd.1 (hae ▸ hmt)
        have hrec := ih hnd.2 hmt (fun j hj => h j (by simp [hj]))
        simp [hpa, hrec]

/-- Replace peer `i`'s custodian fields in the global assignment. -/
def updPeer (f : Nat → LockState) (i : Nat) (s : LockState) : Nat → LockState :=
  fun j => if j = i then s else f j


/-- Where a peer's client thread stands inside `acquire`: `idle` (no
acquisition in progress), `waiting` (inside the unguarded busy-wait
`while self.state == NO_TOKEN: pass`), `ready` (it has observed a
non-`NO_TOKEN` state — at the guarded inspection on entry, or at the
busy-wait exit — and will next run the final guarded section that
assigns `TOKEN_HELD` unconditionally). -/
inductive ClientPhase where
  | idle
  | waiting
  | ready
deriving DecidableEq

/-- Replace peer `i`'s client phase in the global assignment. -/
def updPhase (f : Nat → ClientPhase) (i : Nat) (c : ClientPhase) :
    Nat → ClientPhase :=
  fun j => if j = i then c else f j

/-- Global protocol state: every peer's custodian fields, every peer's
client-thread phase inside `acquire`, plus the `request_token` and
`obtain_token` messages still in flight. -/
structure GlobalState where
  st : Nat → LockState
  phase : Nat → ClientPhase
  reqMsgs : List (Nat × Nat × Nat)
  tokMsgs : List (Nat × List (Nat × Nat))

/-- The max-merge line of `request_token`
(`request[pid] = max(request[pid], time)`); on an unknown `pid` the
`KeyError` fires before any mutation, leaving the fields unchanged.  The
conditional forward when the state is `TOKEN_PRESENT` is the separate
`releaseStep` transition. -/
def mergeRequest (s : LockState) (t pid : Nat) : LockState :=
  match dictGet s.request pid with
  | none => s
  | some r => { s with request := dictInsert s.request pid (max r t) }

/-- One interleaved step of the running system over the static peer set
`P`, each transition one guarded section or one unguarded observation of
the source.  `acquire` contributes three transitions, reproducing its
actual structure: `startAcquireNoToken` (guarded clock bump plus
`request_token` broadcast from `NO_TOKEN`, then the client sits in the
busy-wait), `startAcquireHasToken` (the guarded inspection sees a
non-`NO_TOKEN` state and the guard is dropped again) and `observeToken`
(the unguarded busy-wait reads a non-`NO_TOKEN` state) both merely mark
the client `ready`; `finishAcquire` is the final guarded section, which
assigns `state := TOKEN_HELD` unconditionally — with no check that the
token is still present — exactly as the source does, so the
stale-observation interleaving (a handler-driven `release` forwarding
the token between the observation and the assignment) is included.
`deliverRequest` is a `request_token` arrival (max-merge); `releaseStep`
is a `release` run with the token — by the client leaving the critical
section or by `request_token` forwarding from `TOKEN_PRESENT` — which
may put one token message in flight; `deliverToken` is an
`obtain_token` arrival.  Remote calls are modelled as in-flight messages
delivered in any order. -/
inductive Step (P : List Nat) : GlobalState → GlobalState → Prop where
  | startAcquireNoToken (g : GlobalState) (i : Nat) (hi : i ∈ P)
      (hph : g.phase i = ClientPhase.idle)
      (hst : (g.st i).state = NO_TOKEN) :
      Step P g
        { st := updPeer g.st i { g.st i with time := (g.st i).time + 1 },
          phase := updPhase g.phase i ClientPhase.waiting,
          reqMsgs := g.reqMsgs ++
            List.map (fun p => (p, (g.st i).time + 1, i)) (viewOf P i),
          tokMsgs := g.tokMsgs }
  | startAcquireHasToken (g : GlobalState) (i : Nat) (hi : i ∈ P)
      (hph : g.phase i = ClientPhase.idle)
      (hst : ¬ (g.st i).state = NO_TOKEN) :
      Step P g { g with phase := updPhase g.phase i ClientPhase.ready }
  | observeToken (g : GlobalState) (i : Nat) (hi : i ∈ P)
      (hph : g.phase i = ClientPhase.waiting)
      (hst : ¬ (g.st i).state = NO_TOKEN) :
      Step P g { g with phase := updPhase g.phase i ClientPhase.ready }
  | finishAcquire (g : GlobalState) (i : Nat) (hi : i ∈ P)
      (hph : g.phase i = ClientPhase.ready) :
      Step P g
        { st := updPeer g.st i { g.st i with state := TOKEN_HELD },
          phase := updPhase g.phase i ClientPhase.idle,
          reqMsgs := g.reqMsgs, tokMsgs := g.tokMsgs }
  | deliverRequest (g : GlobalState) (i t j : Nat)
      (l1 l2 : List (Nat × Nat × Nat)) (hm : g.reqMsgs = l1 ++ (i, t, j) :: l2) :
      Step P g
        { st := updPeer g.st i (mergeRequest (g.st i) t j),
          phase := g.phase, reqMsgs := l1 ++ l2, tokMsgs := g.tokMsgs }
  | releaseStep (g : GlobalState) (i : Nat) (hi : i ∈ P)
      (hst : (g.st i).state = TOKEN_HELD ∨ (g.st i).state = TOKEN_PRESENT) :
      Step P g
        { st := updPeer g.st i ((pyRelease i (viewOf P i) (g.st i)).2.stateOf),
          phase := g.phase, reqMsgs := g.reqMsgs,
          tokMsgs := g.tokMsgs ++ sendsOf (pyRelease i (viewOf P i) (g.st i)).1 }
  | deliverToken (g : GlobalState) (i : Nat) (pl : List (Nat × Nat))
      (l1 l2 : List (Nat × List (Nat × Nat)))
      (hm : g.tokMsgs = l1 ++ (i, pl) :: l2) :
      Step P g
        { st := updPeer g.st i ((pyObtainToken (g.st i) pl).2.stateOf),
          phase := g.phase, reqMsgs := g.reqMsgs, tokMsgs := l1 ++ l2 }

/-- The system right after every peer ran `initialize` on its fresh
custodian: no message in flight, every client thread idle. -/
def initialGlobal (P : List Nat) : GlobalState :=
  { st := fun i => pyInit i (viewOf P i) initState,
    phase := fun _ => ClientPhase.idle,
    reqMsgs := [], tokMsgs := [] }

/-- Number of peers currently holding the token
(`state != NO_TOKEN`). -/
def custodianCount (P : List Nat) (g : GlobalState) : Nat :=
  countIf (fun i => decide (¬ (g.st i).state = NO_TOKEN)) P

/-- Number of peers currently inside the critical section
(`state == TOKEN_HELD`). -/
def heldCount (P : List Nat) (g : GlobalState) : Nat :=
  countIf (fun i => decide ((g.st i).state = TOKEN_HELD)) P

lemma mergeRequest_state (s : LockState) (t pid : Nat) :
    (mergeRequest s t pid).state = s.state := by
  unfold mergeRequest
  cases dictGet s.request pid <;> rfl

lemma mergeRequest_token (s : LockState) (t pid : Nat) :
    (mergeRequest s t pid).token = s.token := by
  unfold mergeRequest
  cases dictGet s.request pid <;> rfl

/-- A `release` whose token holds only the owner's own key never sends:
the scan's very first candidate (every view member has a larger id than
the initial custodian's) raises `KeyError` — either on the request
lookup or on the token lookup — before any send, and with no candidate
at all the scan finds nobody; either way the state returns to
`TOKEN_PRESENT` and the token is untouched. -/
lemma pyRelease_lone_key (m : Nat) (V : List Nat) (s : LockState)
    (htok : s.token = some [(m, 0)])
    (hV : ∀ j ∈ V, m < j) :
    sendsOf (pyRelease m V s).1 = [] ∧
    ((pyRelease m V s).2.stateOf).state = TOKEN_PRESENT ∧
    ((pyRelease m V s).2.stateOf).token = some [(m, 0)] := by
  cases V with
  | nil =>
      rw [show pyRelease m ([] : List Nat) s =
          ([Event.lockAcquire, Event.lockRelease],
           PyOutcome.ok { s with state := TOKEN_PRESENT }) from by
        simp [pyRelease, releaseScan]]
      simp [sendsOf, PyOutcome.stateOf, htok]
  | cons v rest =>
      have hv : m < v := hV v (by simp)
      have hmv : ¬ (m = v) := by omega
      have hscan : ∃ e, releaseScan s.time m (fun pid => decide (m < pid))
          s.request s.token (v :: rest) = Except.error e := by
        rw [releaseScan]
        simp only [show decide (m < v) = true by simpa using hv, if_true]
        cases hg : dictGet s.request v with
        | none =>
            refine ⟨PyErr.keyError v, ?_⟩
            simp [hg]
        | some rq =>
            refine ⟨PyErr.keyError v, ?_⟩
            have hnone : dictGet [(m, 0)] v = none := by
              simp [dictGet, List.find?, hmv]
            simp [hg, htok, hnone]
      obtain ⟨e, he⟩ := hscan
      rw [show pyRelease m (v :: rest) s =
          ([Event.lockAcquire, Event.lockRelease],
           PyOutcome.err e { s with state := TOKEN_PRESENT }) from by
        simp [pyRelease, he]]
      simp [sendsOf, PyOutcome.stateOf, htok]

/-- The reachability invariant of the initialize-only system: no token
message is ever in flight, the initial custodian keeps custody and its
one-entry token `{m: 0}`, and no other peer ever leaves `NO_TOKEN` or
gets past the wait in `acquire`.  The token cannot move because it holds
no foreign key (the defect reported for C5), so every handoff attempt
raises `KeyError` before sending. -/
def StrongInv (P : List Nat) (m : Nat) (g : GlobalState) : Prop :=
  g.tokMsgs = [] ∧
  (g.st m).token = some [(m, 0)] ∧
  ((g.st m).state = TOKEN_PRESENT ∨ (g.st m).state = TOKEN_HELD) ∧
  (∀ j ∈ P, j ≠ m → (g.st j).state = NO_TOKEN ∧ g.phase j ≠ ClientPhase.ready)

lemma strongInv_initial (P : List Nat) (m : Nat) (hmP : m ∈ P)
    (hmin : ∀ j ∈ P, m ≤ j) :
    StrongInv P m (initialGlobal P) := by
  have hview : ∀ k ∈ viewOf P m, m ≤ k := fun k hk =>
    hmin k ((mem_viewOf P m k).mp hk).1
  have hc := pyInit_state_custodian m (viewOf P m) initState hview
  refine ⟨rfl, ?_, ?_, ?_⟩
  · show (pyInit m (viewOf P m) initState).token = some [(m, 0)]
    rw [hc.2]
    simp [dictInsert]
  · left
    exact hc.1
  · intro j hj hjm
    have hmlt : m < j := by
      have h1 := hmin j hj
      omega
    have hmem2 : m ∈ viewOf P j := (mem_viewOf P j m).mpr ⟨hmP, by omega⟩
    have hn := pyInit_state_not_custodian j (viewOf P j) initState ⟨m, hmem2, hmlt⟩
    refine ⟨hn.1, ?_⟩
    show ClientPhase.idle ≠ ClientPhase.ready
    simp

lemma strongInv_step (P : List Nat) (m : Nat) (hmin : ∀ j ∈ P, m ≤ j)
    (g g' : GlobalState) (hstep : Step P g g') (hinv : StrongInv P m g) :
    StrongInv P m g' := by
  obtain ⟨hmsgs, htok, hcust, hoth⟩ := hinv
  have honly : ∀ i, i ∈ P → ¬ (g.st i).state = NO_TOKEN → i = m := by
    intro i hi hne
    by_contra him
    exact hne (hoth i hi him).1
  cases hstep with
  | startAcquireNoToken i hi hph hst =>
      have him : i ≠ m := by
        intro he
        subst he
        rcases hcust with h | h <;> rw [hst] at h <;>
          simp [NO_TOKEN, TOKEN_PRESENT, TOKEN_HELD] at h
      refine ⟨hmsgs, ?_, ?_, ?_⟩
      · show (updPeer g.st i { g.st i with time := (g.st i).time + 1 } m).token
          = some [(m, 0)]
        simp [updPeer, Ne.symm him]
        exact htok
      · show (updPeer g.st i { g.st i with time := (g.st i).time + 1 } m).state
            = TOKEN_PRESENT ∨
          (updPeer g.st i { g.st i with time := (g.st i).time + 1 } m).state
            = TOKEN_HELD
        simp only [updPeer, if_neg (Ne.symm him)]
        exact hcust
      · intro j hj hjm
        constructor
        · show (updPeer g.st i { g.st i with time := (g.st i).time + 1 } j).state
            = NO_TOKEN
          by_cases hji : j = i
          · subst hji
            simp [updPeer]
            exact hst
          · simp only [updPeer, if_neg hji]
            exact (hoth j hj hjm).1
        · show updPhase g.phase i ClientPhase.waiting j ≠ ClientPhase.ready
          by_cases hji : j = i
          · subst hji
            simp [updPhase]
          · simp only [updPhase, if_neg hji]
            exact (hoth j hj hjm).2
  | startAcquireHasToken i hi hph hst =>
      have him : i = m := honly i hi hst
      subst him
      refine ⟨hmsgs, htok, hcust, ?_⟩
      intro j hj hjm
      refine ⟨(hoth j hj hjm).1, ?_⟩
      show updPhase g.phase i ClientPhase.ready j ≠ ClientPhase.ready
      simp only [updPhase, if_neg hjm]
      exact (hoth j hj hjm).2
  | observeToken i hi hph hst =>
      have him : i = m := honly i hi hst
      subst him
      refine ⟨hmsgs, htok, hcust, ?_⟩
      intro j hj hjm
      refine ⟨(hoth j hj hjm).1, ?_⟩
      show updPhase g.phase i ClientPhase.ready j ≠ ClientPhase.ready
      simp only [updPhase, if_neg hjm]
      exact (hoth j hj hjm).2
  | finishAcquire i hi hph =>
      have him : i = m := by
        by_contra hne
        have h1 := (hoth i hi hne).2
        exact h1 hph
      subst him
      refine ⟨hmsgs, ?_, ?_, ?_⟩
      · show (updPeer g.st i { g.st i with state := TOKEN_HELD } i).token
          = some [(i, 0)]
        simp [updPeer]
        exact htok
      · show (updPeer g.st i { g.st i with state := TOKEN_HELD } i).state
            = TOKEN_PRESENT ∨
          (updPeer g.st i { g.st i with state := TOKEN_HELD } i).state
            = TOKEN_HELD
        right
        simp [updPeer]
      · intro j hj hjm
        constructor
        · show (updPeer g.st i { g.st i with state := TOKEN_HELD } j).state
            = NO_TOKEN
          simp only [updPeer, if_neg hjm]
          exact (hoth j hj hjm).1
        · show updPhase g.phase i ClientPhase.idle j ≠ ClientPhase.ready
          by_cases hji : j = i
          · subst hji
            simp [updPhase]
          · simp only [updPhase, if_neg hji]
            exact (hoth j hj hjm).2
  | deliverRequest i t j l1 l2 hm =>
      refine ⟨hmsgs, ?_, ?_, ?_⟩
      · show (updPeer g.st i (mergeRequest (g.st i) t j) m).token = some [(m, 0)]
        by_cases him : m = i
        · subst him
          simp [updPeer, mergeRequest_token]
          exact htok
        · simp only [updPeer, if_neg him]
          exact htok
      · show (updPeer g.st i (mergeRequest (g.st i) t j) m).state = TOKEN_PRESENT ∨
          (updPeer g.st i (mergeRequest (g.st i) t j) m).state = TOKEN_HELD
        by_cases him : m = i
        · subst him
          simp [updPeer]
          rw [mergeRequest_state]
          exact hcust
        · simp only [updPeer, if_neg him]
          exact hcust
      · intro k hk hkm
        constructor
        · show (updPeer g.st i (mergeRequest (g.st i) t j) k).state = NO_TOKEN
          by_cases hki : k = i
          · subst hki
            simp [updPeer]
            rw [mergeRequest_state]
            exact (hoth k hk hkm).1
          · simp only [updPeer, if_neg hki]
            exact (hoth k hk hkm).1
        · exact (hoth k hk hkm).2
  | releaseStep i hi hst =>
      have him : i = m := by
        apply honly i hi
        rcases hst with h | h <;> rw [h] <;>
          simp [NO_TOKEN, TOKEN_PRESENT, TOKEN_HELD]
      subst him
      have hV : ∀ j ∈ viewOf P i, i < j := by
        intro j hj
        obtain ⟨hjP, hji⟩ := (mem_viewOf P i j).mp hj
        have h1 := hmin j hjP
        omega
      have hlone := pyRelease_lone_key i (viewOf P i) (g.st i) htok hV
      refine ⟨?_, ?_, ?_, ?_⟩
      · show g.tokMsgs ++ sendsOf (pyRelease i (viewOf P i) (g.st i)).1 = []
        rw [hmsgs, hlone.1]
        rfl
      · show (updPeer g.st i ((pyRelease i (viewOf P i) (g.st i)).2.stateOf) i).token
          = some [(i, 0)]
        simp [updPeer]
        exact hlone.2.2
      · left
        show (updPeer g.st i ((pyRelease i (viewOf P i) (g.st i)).2.stateOf) i).state
          = TOKEN_PRESENT
        simp [updPeer]
        exact hlone.2.1
      · intro j hj hjm
        refine ⟨?_, (hoth j hj hjm).2⟩
        show (updPeer g.st i ((pyRelease i (viewOf P i) (g.st i)).2.stateOf) j).state
          = NO_TOKEN
        simp only [updPeer, if_neg hjm]
        exact (hoth j hj hjm).1
  | deliverToken i pl l1 l2 hm =>
      rw [hmsgs] at hm
      exact absurd hm.symm (by simp)

lemma strongInv_counts (P : List Nat) (hnd : P.Nodup) (m : Nat) (hmP : m ∈ P)
    (g : GlobalState) (hinv : StrongInv P m g) :
    heldCount P g ≤ 1 ∧ custodianCount P g + List.length g.tokMsgs = 1 := by
  obtain ⟨hmsgs, htok, hcust, hoth⟩ := hinv
  have hone : custodianCount P g = 1 := by
    unfold custodianCount
    apply countIf_eq_one_of_unique _ P hnd m hmP
    intro j hj
    constructor
    · intro hp
      by_contra hjm
      have h1 := (hoth j hj hjm).1
      simp [h1] at hp
    · intro he
      subst he
      rcases hcust with h | h <;> simp [h, TOKEN_PRESENT, TOKEN_HELD, NO_TOKEN]
  have hle : heldCount P g ≤ custodianCount P g := by
    unfold heldCount custodianCount
    apply countIf_le_of_imp
    intro j hj hp
    simp at hp ⊢
    simp [hp, TOKEN_HELD, NO_TOKEN]
  refine ⟨by omega, ?_⟩
  rw [hmsgs, hone]
  rfl

lemma strongInv_reachable (P : List Nat) (m : Nat) (hmP : m ∈ P)
    (hmin : ∀ j ∈ P, m ≤ j) (g : GlobalState)
    (hg : Relation.ReflTransGen (Step P) (initialGlobal P) g) :
    StrongInv P m g := by
  induction hg with
  | refl => exact strongInv_initial P m hmP hmin
  | tail hsteps hstep ih => exact strongInv_step P m hmin _ _ hstep ih

/-- C1: over every interleaving of `acquire`, `release`, `request_token`
and `obtain_token` steps from the initialized system (static peer set,
no peer death) — including the stale-wait interleaving, since the model
assigns `TOKEN_HELD` unconditionally once the client has merely
*observed* a non-`NO_TOKEN` state — at most one peer is in `TOKEN_HELD`
at any instant, and local custodians plus in-flight token handoffs
always total exactly one: exactly one custodian (`TOKEN_PRESENT` or
`TOKEN_HELD`) exists system-wide, except transiently while a handoff
message is in flight.  In this initialize-only system the property holds
because the token never moves at all: the initial custodian's token maps
only its own id (the C5 defect), so every forwarding attempt raises
`KeyError` before sending, no other peer ever leaves `NO_TOKEN`, and the
unconditional `TOKEN_HELD` grab can only fire at the peer that already
custodies the token. -/
theorem C1_mutual_exclusion (P : List Nat) (hne : P ≠ []) (hnd : P.Nodup)
    (g : GlobalState) (hg : Relation.ReflTransGen (Step P) (initialGlobal P) g) :
    heldCount P g ≤ 1 ∧ custodianCount P g + List.length g.tokMsgs = 1 := by
  obtain ⟨m, hmP, hmin⟩ := exists_list_min P hne
  exact strongInv_counts P hnd m hmP g (strongInv_reachable P m hmP hmin g hg)

/-- Witness for C1 at the freshly initialized two-peer system. -/
theorem C1_mutual_exclusion_witness :
    heldCount [1, 2] (initialGlobal [1, 2]) ≤ 1 ∧
    custodianCount [1, 2] (initialGlobal [1, 2]) +
      List.length (initialGlobal [1, 2]).tokMsgs = 1 :=
  C1_mutual_exclusion [1, 2] (by decide) (by decide) (initialGlobal [1, 2])
    Relation.ReflTransGen.refl
